import Mathlib

/-
Verification of the edit-reconciliation core of eslint-plugin-oxlint-x.

The embedding covers:
  - generateDifferences (src/helper.js): the coalescing loop that turns a raw
    fast-diff edit script into insert / delete / replace edits anchored at
    offsets into the original source. Strings are modelled as List Char.
  - showInvisibles (src/helper.js): the whitespace glyph substitution.
  - mergeConfigs (config merge helper): deep merge of configuration trees,
    with JavaScript objects modelled as ordered association lists of fields.
-/

/-- Raw edit operation, one entry of the edit script produced by the external
fast-diff primitive: an Equal, Insert or Delete run of text. Text is modelled
as a list of characters. -/
inductive RawOp where
  | insert (text : List Char)
  | delete (text : List Char)
  | equal (text : List Char)
deriving DecidableEq, Repr

/-- Character class of the regular expression LINE_ENDING_RE in helper.js.
The regex matches a CRLF pair or any single character among newline, carriage
return, U+2028 and U+2029, so a string matches exactly when it contains one of
those four characters. -/
def lineEndingChar (c : Char) : Bool :=
  c == '\n' || c == '\r' || c == '\u2028' || c == '\u2029'

/-- Test LINE_ENDING_RE.test on a text: the text contains a line ending. -/
def hasLineEnding (t : List Char) : Bool :=
  t.any lineEndingChar

/-- Old-side projection of an edit script: the concatenation of the Equal and
Delete texts. In the flush helper of generateDifferences this is exactly the
accumulated aheadDeleteText of a batch. -/
def oldSide : List RawOp → List Char
  | [] => []
  | .insert _ :: rest => oldSide rest
  | .delete t :: rest => t ++ oldSide rest
  | .equal t :: rest => t ++ oldSide rest

/-- New-side projection of an edit script: the concatenation of the Equal and
Insert texts. In the flush helper of generateDifferences this is exactly the
accumulated aheadInsertText of a batch. -/
def newSide : List RawOp → List Char
  | [] => []
  | .insert t :: rest => t ++ newSide rest
  | .delete _ :: rest => newSide rest
  | .equal t :: rest => t ++ newSide rest

/-- Coalesced edit emitted by generateDifferences. The three constructors
mirror the three object shapes pushed onto the differences array, with the
operation field given by the constructor. -/
inductive Difference where
  | ins (offset : Nat) (insertText : List Char)
  | del (offset : Nat) (deleteText : List Char)
  | repl (offset : Nat) (deleteText : List Char) (insertText : List Char)
deriving DecidableEq, Repr

/-- Offset field of an emitted edit. -/
def Difference.offset : Difference → Nat
  | .ins o _ => o
  | .del o _ => o
  | .repl o _ _ => o

/-- DeleteText field of an emitted edit; an insert edit has no deleteText
field, which reads as the empty text (length 0). -/
def Difference.deleteText : Difference → List Char
  | .ins _ _ => []
  | .del _ d => d
  | .repl _ d _ => d

/-- InsertText field of an emitted edit; a delete edit has no insertText
field, which reads as the empty text. -/
def Difference.insertText : Difference → List Char
  | .ins _ i => i
  | .del _ _ => []
  | .repl _ _ i => i

/-- Flush helper of generateDifferences: drain the batch, accumulating the
delete side (Delete and Equal texts) and the insert side (Insert and Equal
texts), then classify. Both sides non-empty gives a replace, only the insert
side an insert, only the delete side a delete, neither nothing. The JS code
afterwards advances offset by the length of the delete side; callers of this
definition account for that advance explicitly. -/
def flush (offset : Nat) (batch : List RawOp) : List Difference :=
  let d := oldSide batch
  let i := newSide batch
  if d ≠ [] ∧ i ≠ [] then [.repl offset d i]
  else if d = [] ∧ i ≠ [] then [.ins offset i]
  else if d ≠ [] ∧ i = [] then [.del offset d]
  else []

/-- Main while loop of generateDifferences over the remaining edit script,
carrying the current offset into the original source and the pending batch.
Inserts and deletes are pushed onto the batch. An Equal op is only examined
while further ops remain: with an empty batch it advances the offset, with a
non-empty batch it either flushes (when its text contains a line ending, the
offset then advancing past the flushed delete text and the Equal text) or is
appended to the batch. After processing the final op a non-empty batch is
flushed; flush on an empty batch emits nothing, matching the guard in the
source. -/
def coalesceLoop : List RawOp → Nat → List RawOp → List Difference
  | [], _, _ => []
  | [op], offset, batch =>
    match op with
    | .insert t => flush offset (batch ++ [.insert t])
    | .delete t => flush offset (batch ++ [.delete t])
    | .equal _ => flush offset batch
  | op :: r2 :: rest, offset, batch =>
    match op with
    | .insert t => coalesceLoop (r2 :: rest) offset (batch ++ [.insert t])
    | .delete t => coalesceLoop (r2 :: rest) offset (batch ++ [.delete t])
    | .equal t =>
      if batch = [] then
        coalesceLoop (r2 :: rest) (offset + t.length) []
      else if hasLineEnding t then
        flush offset batch ++
          coalesceLoop (r2 :: rest) (offset + (oldSide batch).length + t.length) []
      else
        coalesceLoop (r2 :: rest) offset (batch ++ [.equal t])

/-- Coalescing pass of generateDifferences applied to a raw edit script, as
the loop runs it: offset 0 and an empty batch. The raw script itself is the
value returned by the external fast-diff primitive for a source and target
pair. -/
def coalesce (script : List RawOp) : List Difference :=
  coalesceLoop script 0 []

/-- Modelled from the spec: patch application semantics for the round-trip
property. Each edit is applied at its stated offset into the original source,
in order, replacing deleteText with insertText. The first argument is the
remaining suffix of the original source, the second the index of its first
character in the original source. -/
def applyEdits : List Char → Nat → List Difference → List Char
  | s, _, [] => s
  | s, pos, e :: rest =>
    List.take (e.offset - pos) s ++ e.insertText ++
      applyEdits (List.drop (e.offset - pos + e.deleteText.length) s)
        (e.offset + e.deleteText.length) rest

/-- VisibleGlyph substitution showInvisibles from helper.js: one pass over the
characters, replacing space, newline, tab and carriage return by their fixed
glyphs and appending every other character unchanged. -/
def showInvisibles : List Char → List Char
  | [] => []
  | c :: rest =>
    (if c = ' ' then ['·']
     else if c = '\n' then ['⏎']
     else if c = '\t' then ['↹']
     else if c = '\r' then ['␍']
     else [c]) ++ showInvisibles rest

/-- Modelled from the spec: the character-by-character glyph map that the
VisibleGlyph contract describes, substituting exactly the four characters and
leaving every other character unchanged. -/
def glyphMap (c : Char) : Char :=
  if c = ' ' then '·'
  else if c = '\n' then '⏎'
  else if c = '\t' then '↹'
  else if c = '\r' then '␍'
  else c

example : coalesce [.equal ['h'], .insert ['x'], .delete ['y']] =
    [.repl 1 ['y'] ['x']] := by decide

example : coalesce [.delete ['a'], .equal ['b']] = [.del 0 ['a']] := by decide

example : showInvisibles [' ', 'a', '\n'] = ['·', 'a', '⏎'] := by decide

/-
Configuration trees. JavaScript configuration values are null, booleans,
numbers, strings, arrays or plain objects; an object is an ordered sequence
of string-keyed fields with pairwise distinct keys. The three types below are
mutually inductive so that the merge recursion over object fields is
structural.
-/

mutual

/-- Configuration value: the recursive tagged value type over which
mergeConfigs operates. -/
inductive ConfigValue where
  | null
  | bool (b : Bool)
  | num (n : Int)
  | str (s : String)
  | arr (elems : ConfigList)
  | obj (fields : Fields)

/-- List of configuration values, the payload of an array value. -/
inductive ConfigList where
  | nil
  | cons (v : ConfigValue) (rest : ConfigList)

/-- Ordered field list of an object value, in object key order. -/
inductive Fields where
  | fnil
  | fcons (k : String) (v : ConfigValue) (rest : Fields)

end

/-- Property read on an object field list: result of looking up key k, none
when the key is absent (undefined in JavaScript). -/
def getField : Fields → String → Option ConfigValue
  | .fnil, _ => none
  | .fcons k2 v rest, k => if k2 = k then some v else getField rest k

/-- Property write on an object field list: assigning to an existing key
updates its value in place keeping the key position, assigning to a fresh key
appends the field at the end, as JavaScript property assignment does. -/
def setField : Fields → String → ConfigValue → Fields
  | .fnil, k, v => .fcons k v .fnil
  | .fcons k2 v2 rest, k, v =>
    if k2 = k then .fcons k2 v rest else .fcons k2 v2 (setField rest k v)

/-- Concatenation of two field lists. -/
def fappend : Fields → Fields → Fields
  | .fnil, gs => gs
  | .fcons k v rest, gs => .fcons k v (fappend rest gs)

/-- Key k does not occur among the keys of a field list. -/
def keyNotIn (k : String) : Fields → Bool
  | .fnil => true
  | .fcons k2 _ rest => if k2 = k then false else keyNotIn k rest

/-- Keys of a field list are pairwise distinct, as the keys of a JavaScript
object always are. -/
def keysNodup : Fields → Bool
  | .fnil => true
  | .fcons k _ rest => keyNotIn k rest && keysNodup rest

mutual

/-- Configuration value whose every object, at every nesting depth reachable
through object fields, has pairwise distinct keys: the image of an actual
JavaScript value. -/
def wellFormed : ConfigValue → Bool
  | .obj fs => wellFormedFields fs
  | _ => true

/-- Field list with pairwise distinct keys and well-formed field values. -/
def wellFormedFields : Fields → Bool
  | .fnil => true
  | .fcons k v rest => keyNotIn k rest && wellFormed v && wellFormedFields rest

end

/-- Truthiness of a configuration value under JavaScript coercion: null, the
boolean false, the number 0 and the empty string are falsy, every array and
every object is truthy. -/
def truthy : ConfigValue → Bool
  | .null => false
  | .bool b => b
  | .num n => n != 0
  | .str s => s != ""
  | .arr _ => true
  | .obj _ => true

/-- Test for a non-array non-null object, the condition under which the merge
recurses: typeof val is object, val is not null and not an array. -/
def ConfigValue.isObj : ConfigValue → Bool
  | .obj _ => true
  | _ => false

mutual

/-- Value stored by one iteration of the mergeConfigs loop for a key whose
current value in the result is the first argument (none when absent) and
whose override value is the second: when both are non-array non-null objects
the recursive merge of the two (mergeConfigs on two objects reduces to
mergeFields on their fields), otherwise the override value wins outright. -/
def mergeValueAt : Option ConfigValue → ConfigValue → ConfigValue
  | some (.obj a), .obj b => .obj (mergeFields a b)
  | _, vb => vb

/-- Loop of mergeConfigs: starting from a copy of the base fields, walk the
override fields in key order and assign each key its merged value. -/
def mergeFields : Fields → Fields → Fields
  | bf, .fnil => bf
  | bf, .fcons k vB rest =>
    mergeFields (setField bf k (mergeValueAt (getField bf k) vB)) rest

end

/-- Field list of a value: the fields of an object, and the empty list for
any other value. This models both the object spread of the base (spreading a
number, boolean or null yields an empty object) and the key iteration of the
override (Object.keys on such a primitive yields no keys). A string primitive
would spread to indexed single-character fields in JavaScript; no
configuration value and no call site exercises that case, so it is modelled
as the empty list as well. -/
def fieldsOf : ConfigValue → Fields
  | .obj fs => fs
  | _ => .fnil

/-- Deep merge mergeConfigs of two configuration values: a falsy base yields
the override (or an empty object when the override is falsy too), a falsy
override yields the base, and otherwise the result is a copy of the base
fields with every override key assigned its merged value. -/
def mergeConfigs (base override : ConfigValue) : ConfigValue :=
  if truthy base = false then
    (if truthy override = true then override else .obj .fnil)
  else if truthy override = false then
    (if truthy base = true then base else .obj .fnil)
  else
    .obj (mergeFields (fieldsOf base) (fieldsOf override))

/-- Key read on a configuration value: field lookup on an object, none on any
other value. -/
def getKey : ConfigValue → String → Option ConfigValue
  | .obj fs, k => getField fs k
  | _, _ => none

example :
    mergeConfigs
      (.obj (.fcons "plugins" (.arr (.cons (.str "p1") (.cons (.str "p2") .nil))) .fnil))
      (.obj (.fcons "plugins" (.arr (.cons (.str "p3") .nil)) .fnil)) =
    .obj (.fcons "plugins" (.arr (.cons (.str "p3") .nil)) .fnil) := rfl

/-
Numeric level of the coalescing loop. The fast-diff primitive hands the loop
tuples whose first component is the numeric operation tag: 1 for an insert,
-1 for a delete, 0 for an equal run. The switch in generateDifferences throws
on any other tag. The definitions below embed the loop at that level, with
the throw modelled as an error result.
-/

/-- Raw tuple of the fast-diff output: operation tag and text. -/
abbrev RawResult := Int × List Char

/-- Delete side accumulated by the flush switch over a batch of raw tuples:
delete (tag -1) and equal (tag 0) texts; tuples with any other tag are
skipped by the switch, which has no default case. -/
def rawDeleteText : List RawResult → List Char
  | [] => []
  | (op, t) :: rest => (if op = -1 ∨ op = 0 then t else []) ++ rawDeleteText rest

/-- Insert side accumulated by the flush switch over a batch of raw tuples:
insert (tag 1) and equal (tag 0) texts. -/
def rawInsertText : List RawResult → List Char
  | [] => []
  | (op, t) :: rest => (if op = 1 ∨ op = 0 then t else []) ++ rawInsertText rest

/-- Flush helper at the numeric level, classifying the accumulated sides the
same way as flush. -/
def rawFlush (offset : Nat) (batch : List RawResult) : List Difference :=
  let d := rawDeleteText batch
  let i := rawInsertText batch
  if d ≠ [] ∧ i ≠ [] then [.repl offset d i]
  else if d = [] ∧ i ≠ [] then [.ins offset i]
  else if d ≠ [] ∧ i = [] then [.del offset d]
  else []

/-- Main loop of generateDifferences at the numeric level: identical control
flow to coalesceLoop, plus the default switch case that throws on a tag other
than 1, -1 and 0, modelled as an error result that aborts the loop. -/
def rawCoalesceLoop : List RawResult → Nat → List RawResult → Except String (List Difference)
  | [], _, _ => .ok []
  | [(op, t)], offset, batch =>
    if op = 1 ∨ op = -1 then .ok (rawFlush offset (batch ++ [(op, t)]))
    else if op = 0 then .ok (rawFlush offset batch)
    else .error "Unexpected fast-diff operation"
  | (op, t) :: r2 :: rest, offset, batch =>
    if op = 1 ∨ op = -1 then rawCoalesceLoop (r2 :: rest) offset (batch ++ [(op, t)])
    else if op = 0 then
      if batch = [] then rawCoalesceLoop (r2 :: rest) (offset + t.length) []
      else if hasLineEnding t then
        match rawCoalesceLoop (r2 :: rest) (offset + (rawDeleteText batch).length + t.length) [] with
        | .ok ds => .ok (rawFlush offset batch ++ ds)
        | .error msg => .error msg
      else rawCoalesceLoop (r2 :: rest) offset (batch ++ [(0, t)])
    else .error "Unexpected fast-diff operation"

/-- Numeric encoding of a well-formed raw op, as fast-diff emits it. -/
def encodeRawOp : RawOp → RawResult
  | .insert t => (1, t)
  | .delete t => (-1, t)
  | .equal t => (0, t)

example : rawCoalesceLoop [(5, ['a'])] 0 [] = .error "Unexpected fast-diff operation" := rfl

example : rawCoalesceLoop [(-1, ['a']), (0, ['b'])] 0 [] = .ok [.del 0 ['a']] := rfl

/-
Helper lemmas about the coalescing loop.
-/

theorem oldSide_append (a b : List RawOp) : oldSide (a ++ b) = oldSide a ++ oldSide b := by
  induction a with
  | nil => simp [oldSide]
  | cons r rest ih => cases r <;> simp [oldSide, ih]

theorem newSide_append (a b : List RawOp) : newSide (a ++ b) = newSide a ++ newSide b := by
  induction a with
  | nil => simp [newSide]
  | cons r rest ih => cases r <;> simp [newSide, ih]

theorem hasLineEnding_pos {t : List Char} (h : hasLineEnding t = true) : 1 ≤ t.length := by
  cases t with
  | nil => simp [hasLineEnding] at h
  | cons c cs => simp

/-- Every edit emitted by a flush sits at the flush offset and carries the two
accumulated sides of the batch as its delete and insert texts. -/
theorem mem_flush {e : Difference} {offset : Nat} {batch : List RawOp}
    (h : e ∈ flush offset batch) :
    e.offset = offset ∧ e.deleteText = oldSide batch ∧ e.insertText = newSide batch := by
  simp only [flush] at h
  split at h
  · next hdi =>
    simp only [List.mem_singleton] at h
    subst h
    exact ⟨rfl, rfl, rfl⟩
  · split at h
    · next hde =>
      simp only [List.mem_singleton] at h
      subst h
      exact ⟨rfl, by simp [Difference.deleteText, hde.1], rfl⟩
    · split at h
      · next hin =>
        simp only [List.mem_singleton] at h
        subst h
        exact ⟨rfl, rfl, by simp [Difference.insertText, hin.2]⟩
      · simp at h

/-- Every edit emitted by the loop sits at or after the current offset. -/
theorem coalesceLoop_offset_le :
    ∀ (results : List RawOp) (offset : Nat) (batch : List RawOp) (e : Difference),
      e ∈ coalesceLoop results offset batch → offset ≤ e.offset := by
  intro results
  induction results with
  | nil => intro offset batch e h; simp [coalesceLoop] at h
  | cons r rest ih =>
    intro offset batch e h
    cases rest with
    | nil =>
      cases r with
      | insert t =>
        simp only [coalesceLoop] at h
        exact le_of_eq (mem_flush h).1.symm
      | delete t =>
        simp only [coalesceLoop] at h
        exact le_of_eq (mem_flush h).1.symm
      | equal t =>
        simp only [coalesceLoop] at h
        exact le_of_eq (mem_flush h).1.symm
    | cons r2 rs =>
      cases r with
      | insert t =>
        simp only [coalesceLoop] at h
        exact ih offset _ e h
      | delete t =>
        simp only [coalesceLoop] at h
        exact ih offset _ e h
      | equal t =>
        simp only [coalesceLoop] at h
        by_cases hb : batch = []
        · rw [if_pos hb] at h
          have := ih _ _ e h
          omega
        · rw [if_neg hb] at h
          by_cases hle : hasLineEnding t = true
          · rw [if_pos hle] at h
            rcases List.mem_append.mp h with h1 | h2
            · exact le_of_eq (mem_flush h1).1.symm
            · have := ih _ _ e h2
              omega
          · rw [if_neg hle] at h
            exact ih offset _ e h

/-- Applying edits that all start past a consumed prefix leaves the prefix
unchanged. -/
theorem applyEdits_shift (t s : List Char) (pos : Nat) (ds : List Difference)
    (h : ∀ e ∈ ds, pos + t.length ≤ e.offset) :
    applyEdits (t ++ s) pos ds = t ++ applyEdits s (pos + t.length) ds := by
  cases ds with
  | nil => simp [applyEdits]
  | cons e rest =>
    have he : pos + t.length ≤ e.offset := h e (by simp)
    have h1 : e.offset - pos - t.length = e.offset - (pos + t.length) := by omega
    have h2 : e.offset - pos + e.deleteText.length - t.length =
        e.offset - (pos + t.length) + e.deleteText.length := by omega
    simp only [applyEdits]
    rw [List.take_append_eq_append_take, List.drop_append_eq_append_drop,
      List.take_of_length_le (by omega), List.drop_eq_nil_of_le (by omega),
      h1, h2]
    simp [List.append_assoc]

/-- Applying a flushed batch against the source text it was accumulated from
produces the new side of the batch and hands the remaining edits the
remaining source, with the offset advanced past the delete side. -/
theorem applyEdits_flush (offset : Nat) (batch : List RawOp) (suffix : List Char)
    (ds : List Difference) :
    applyEdits (oldSide batch ++ suffix) offset (flush offset batch ++ ds) =
      newSide batch ++ applyEdits suffix (offset + (oldSide batch).length) ds := by
  simp only [flush]
  split
  · next hdi =>
    simp only [List.singleton_append, applyEdits, Difference.offset,
      Difference.deleteText, Difference.insertText, Nat.sub_self, List.take_zero,
      List.nil_append, Nat.zero_add]
    simp
  · next hdi =>
    split
    · next hde =>
      rw [hde.1]
      simp only [List.singleton_append, applyEdits, Difference.offset,
        Difference.deleteText, Difference.insertText, Nat.sub_self, List.take_zero,
        List.nil_append, List.length_nil, Nat.add_zero]
      simp
    · next hde =>
      split
      · next hin =>
        rw [hin.2]
        simp only [List.singleton_append, applyEdits, Difference.offset,
          Difference.deleteText, Difference.insertText, Nat.sub_self, List.take_zero,
          List.nil_append, Nat.zero_add]
        simp
      · next hin =>
        have hd : oldSide batch = [] := by
          by_cases hcd : oldSide batch = []
          · exact hcd
          · by_cases hci : newSide batch = []
            · exact absurd ⟨hcd, hci⟩ hin
            · exact absurd ⟨hcd, hci⟩ hdi
        have hi : newSide batch = [] := by
          by_cases hci : newSide batch = []
          · exact hci
          · exact absurd ⟨hd, hci⟩ hde
        rw [hd, hi]
        simp [applyEdits]

/-- Empty flush output forces both accumulated sides of the batch empty. -/
theorem flush_eq_nil {offset : Nat} {batch : List RawOp} (h : flush offset batch = []) :
    oldSide batch = [] ∧ newSide batch = [] := by
  simp only [flush] at h
  split at h
  · simp at h
  · split at h
    · simp at h
    · split at h
      · simp at h
      · next h1 h2 h3 =>
        by_cases hd : oldSide batch = []
        · by_cases hi : newSide batch = []
          · exact ⟨hd, hi⟩
          · exact absurd ⟨hd, hi⟩ h2
        · by_cases hi : newSide batch = []
          · exact absurd ⟨hd, hi⟩ h3
          · exact absurd ⟨hd, hi⟩ h1

/-- Empty loop output forces equal projections of the pending batch and
remaining script. -/
theorem coalesceLoop_eq_nil :
    ∀ (results : List RawOp) (offset : Nat) (batch : List RawOp),
      (results = [] → batch = []) →
      coalesceLoop results offset batch = [] →
      oldSide (batch ++ results) = newSide (batch ++ results) := by
  intro results
  induction results with
  | nil =>
    intro offset batch hr _
    simp [hr rfl, oldSide, newSide]
  | cons r rest ih =>
    intro offset batch _ h
    cases rest with
    | nil =>
      cases r with
      | insert t =>
        simp only [coalesceLoop] at h
        have hfe := flush_eq_nil h
        exact hfe.1.trans hfe.2.symm
      | delete t =>
        simp only [coalesceLoop] at h
        have hfe := flush_eq_nil h
        exact hfe.1.trans hfe.2.symm
      | equal t =>
        simp only [coalesceLoop] at h
        have hfe := flush_eq_nil h
        simp [oldSide_append, newSide_append, oldSide, newSide, hfe.1, hfe.2]
    | cons r2 rs =>
      cases r with
      | insert t =>
        simp only [coalesceLoop] at h
        have h2 := ih offset (batch ++ [.insert t]) (by simp) h
        simpa [oldSide_append, newSide_append, oldSide, newSide,
          List.append_assoc] using h2
      | delete t =>
        simp only [coalesceLoop] at h
        have h2 := ih offset (batch ++ [.delete t]) (by simp) h
        simpa [oldSide_append, newSide_append, oldSide, newSide,
          List.append_assoc] using h2
      | equal t =>
        simp only [coalesceLoop] at h
        by_cases hb : batch = []
        · rw [if_pos hb] at h
          subst hb
          have h2 := ih (offset + t.length) [] (by simp) h
          simp only [List.nil_append, oldSide, newSide] at h2 ⊢
          rw [h2]
        · rw [if_neg hb] at h
          by_cases hle : hasLineEnding t = true
          · rw [if_pos hle] at h
            have hap := List.append_eq_nil.mp h
            have hfe := flush_eq_nil hap.1
            have h2 := ih _ [] (by simp) hap.2
            simp only [List.nil_append] at h2
            simp [oldSide_append, newSide_append, oldSide, newSide,
              hfe.1, hfe.2, h2]
          · rw [if_neg hle] at h
            have h2 := ih offset (batch ++ [.equal t]) (by simp) h
            simpa [oldSide_append, newSide_append, oldSide, newSide,
              List.append_assoc] using h2

/-- Flush output satisfies any chain predicate: it has at most one edit. -/
theorem flush_chain (R : Difference → Difference → Prop) (offset : Nat)
    (batch : List RawOp) : List.Chain' R (flush offset batch) := by
  simp only [flush]
  split
  · simp
  · split
    · simp
    · split
      · simp
      · simp

/-- Flush output is empty or a single edit at the flush offset carrying the
accumulated sides of the batch. -/
theorem flush_cases (offset : Nat) (batch : List RawOp) :
    flush offset batch = [] ∨
    ∃ e, flush offset batch = [e] ∧ e.offset = offset ∧
      e.deleteText = oldSide batch ∧ e.insertText = newSide batch := by
  simp only [flush]
  split
  · next h => right; exact ⟨_, rfl, rfl, rfl, rfl⟩
  · split
    · next h => right; exact ⟨_, rfl, rfl, by simp [Difference.deleteText, h.1], rfl⟩
    · split
      · next h => right; exact ⟨_, rfl, rfl, rfl, by simp [Difference.insertText, h.2]⟩
      · left; rfl

/-- Edits emitted by the loop sit at strictly ascending, non-overlapping
offsets: each edit starts strictly after the previous edit ends on the
source side. -/
theorem coalesceLoop_chain :
    ∀ (results : List RawOp) (offset : Nat) (batch : List RawOp),
      List.Chain' (fun e1 e2 => e1.offset + e1.deleteText.length < e2.offset)
        (coalesceLoop results offset batch) := by
  intro results
  induction results with
  | nil => intro offset batch; simp [coalesceLoop]
  | cons r rest ih =>
    intro offset batch
    cases rest with
    | nil =>
      cases r with
      | insert t => exact flush_chain _ _ _
      | delete t => exact flush_chain _ _ _
      | equal t => exact flush_chain _ _ _
    | cons r2 rs =>
      cases r with
      | insert t =>
        simp only [coalesceLoop]
        exact ih offset _
      | delete t =>
        simp only [coalesceLoop]
        exact ih offset _
      | equal t =>
        simp only [coalesceLoop]
        by_cases hb : batch = []
        · rw [if_pos hb]
          exact ih _ _
        · rw [if_neg hb]
          by_cases hle : hasLineEnding t = true
          · rw [if_pos hle]
            rcases flush_cases offset batch with hf | ⟨e, hf, he1, he2, he3⟩
            · rw [hf, List.nil_append]
              exact ih _ _
            · cases hds : coalesceLoop (r2 :: rs)
                (offset + (oldSide batch).length + t.length) [] with
              | nil => rw [hf]; simp
              | cons d ds2 =>
                rw [hf, List.singleton_append, List.chain'_cons]
                constructor
                · have hym := coalesceLoop_offset_le (r2 :: rs)
                    (offset + (oldSide batch).length + t.length) [] d
                    (by rw [hds]; exact List.mem_cons_self d ds2)
                  have ht := hasLineEnding_pos hle
                  have he2l : e.deleteText.length = (oldSide batch).length := by
                    rw [he2]
                  omega
                · have h2 := ih (offset + (oldSide batch).length + t.length) []
                  rw [hds] at h2
                  exact h2
          · rw [if_neg hle]
            exact ih offset _

/-- Scripts with an unrecognized numeric tag make the loop abort with an
error: the bad tuple is never skipped. -/
theorem rawCoalesceLoop_error :
    ∀ (results : List RawResult) (offset : Nat) (batch : List RawResult),
      (∃ r ∈ results, r.1 ≠ 1 ∧ r.1 ≠ -1 ∧ r.1 ≠ 0) →
      ∃ msg, rawCoalesceLoop results offset batch = .error msg := by
  intro results
  induction results with
  | nil =>
    intro offset batch hbad
    obtain ⟨r, hr, _⟩ := hbad
    simp at hr
  | cons p rest ih =>
    intro offset batch hbad
    obtain ⟨r, hr, hb1, hb2, hb3⟩ := hbad
    obtain ⟨op, t⟩ := p
    cases rest with
    | nil =>
      have hrp : r = (op, t) := by simpa using hr
      subst hrp
      simp only [rawCoalesceLoop]
      rw [if_neg (by simp at hb1 hb2 ⊢; exact ⟨hb1, hb2⟩), if_neg (by simpa using hb3)]
      exact ⟨_, rfl⟩
    | cons r2 rs =>
      rcases List.mem_cons.mp hr with heq | hmem
      · subst heq
        simp only [rawCoalesceLoop]
        rw [if_neg (by simp at hb1 hb2 ⊢; exact ⟨hb1, hb2⟩), if_neg (by simpa using hb3)]
        exact ⟨_, rfl⟩
      · simp only [rawCoalesceLoop]
        by_cases h1 : op = 1 ∨ op = -1
        · rw [if_pos h1]
          exact ih _ _ ⟨r, hmem, hb1, hb2, hb3⟩
        · rw [if_neg h1]
          by_cases h0 : op = 0
          · rw [if_pos h0]
            by_cases hbt : batch = []
            · rw [if_pos hbt]
              exact ih _ _ ⟨r, hmem, hb1, hb2, hb3⟩
            · rw [if_neg hbt]
              by_cases hle : hasLineEnding t = true
              · rw [if_pos hle]
                obtain ⟨msg, hmsg⟩ := ih _ ([] : List RawResult) ⟨r, hmem, hb1, hb2, hb3⟩
                rw [hmsg]
                exact ⟨msg, rfl⟩
              · rw [if_neg hle]
                exact ih _ _ ⟨r, hmem, hb1, hb2, hb3⟩
          · rw [if_neg h0]
            exact ⟨_, rfl⟩

/-- Scripts whose every tuple carries one of the three defined tags never
make the loop fail. -/
theorem rawCoalesceLoop_ok :
    ∀ (results : List RawResult) (offset : Nat) (batch : List RawResult),
      (∀ r ∈ results, r.1 = 1 ∨ r.1 = -1 ∨ r.1 = 0) →
      ∃ ds, rawCoalesceLoop results offset batch = .ok ds := by
  intro results
  induction results with
  | nil => intro offset batch _; exact ⟨[], rfl⟩
  | cons p rest ih =>
    intro offset batch hgood
    obtain ⟨op, t⟩ := p
    have hop : op = 1 ∨ op = -1 ∨ op = 0 := hgood (op, t) (by simp)
    have hrest : ∀ r ∈ rest, r.1 = 1 ∨ r.1 = -1 ∨ r.1 = 0 :=
      fun r hrm => hgood r (List.mem_cons_of_mem _ hrm)
    cases rest with
    | nil =>
      simp only [rawCoalesceLoop]
      by_cases h1 : op = 1 ∨ op = -1
      · rw [if_pos h1]
        exact ⟨_, rfl⟩
      · have h0 : op = 0 := by rcases hop with h | h | h <;> simp [h] at h1 ⊢
        rw [if_neg h1, if_pos h0]
        exact ⟨_, rfl⟩
    | cons r2 rs =>
      simp only [rawCoalesceLoop]
      by_cases h1 : op = 1 ∨ op = -1
      · rw [if_pos h1]
        exact ih _ _ hrest
      · have h0 : op = 0 := by rcases hop with h | h | h <;> simp [h] at h1 ⊢
        rw [if_neg h1, if_pos h0]
        by_cases hbt : batch = []
        · rw [if_pos hbt]
          exact ih _ _ hrest
        · rw [if_neg hbt]
          by_cases hle : hasLineEnding t = true
          · rw [if_pos hle]
            obtain ⟨ds, hds⟩ := ih _ ([] : List RawResult) hrest
            rw [hds]
            exact ⟨_, rfl⟩
          · rw [if_neg hle]
            exact ih _ _ hrest

/-- VisibleGlyph substitution is the character-by-character glyph map. -/
theorem showInvisibles_eq_map : ∀ s : List Char, showInvisibles s = s.map glyphMap := by
  intro s
  induction s with
  | nil => rfl
  | cons c rest ih =>
    simp only [showInvisibles, glyphMap, List.map]
    split_ifs <;> simp [ih]

/-- Round-trip invariant of the loop: for any reachable loop state, applying
the emitted edits to the old side of the pending batch and remaining script
yields the new side. The side condition records that the loop is never
entered with an empty script and a pending batch. -/
theorem coalesceLoop_round_trip :
    ∀ (results : List RawOp) (offset : Nat) (batch : List RawOp),
      (results = [] → batch = []) →
      applyEdits (oldSide batch ++ oldSide results) offset
          (coalesceLoop results offset batch) =
        newSide batch ++ newSide results := by
  intro results
  induction results with
  | nil =>
    intro offset batch h
    simp [coalesceLoop, h rfl, applyEdits, oldSide, newSide]
  | cons r rest ih =>
    intro offset batch _
    cases rest with
    | nil =>
      cases r with
      | insert t =>
        simp only [coalesceLoop]
        have h2 := applyEdits_flush offset (batch ++ [.insert t]) [] []
        simp only [oldSide_append, newSide_append, oldSide, newSide,
          List.append_nil, applyEdits] at h2 ⊢
        exact h2
      | delete t =>
        simp only [coalesceLoop]
        have h2 := applyEdits_flush offset (batch ++ [.delete t]) [] []
        simp only [oldSide_append, newSide_append, oldSide, newSide,
          List.append_nil, applyEdits] at h2 ⊢
        exact h2
      | equal t =>
        simp only [coalesceLoop]
        have h2 := applyEdits_flush offset batch t []
        simp only [oldSide, newSide, List.append_nil, applyEdits] at h2 ⊢
        exact h2
    | cons r2 rs =>
      cases r with
      | insert t =>
        simp only [coalesceLoop]
        have h2 := ih offset (batch ++ [.insert t]) (by simp)
        simp only [oldSide_append, newSide_append, oldSide, newSide,
          List.append_nil, List.append_assoc] at h2 ⊢
        exact h2
      | delete t =>
        simp only [coalesceLoop]
        have h2 := ih offset (batch ++ [.delete t]) (by simp)
        simp only [oldSide_append, newSide_append, oldSide, newSide,
          List.append_nil, List.append_assoc] at h2 ⊢
        exact h2
      | equal t =>
        simp only [coalesceLoop]
        by_cases hb : batch = []
        · rw [if_pos hb]
          subst hb
          have hsh := applyEdits_shift t (oldSide (r2 :: rs)) offset
            (coalesceLoop (r2 :: rs) (offset + t.length) [])
            (fun e he => coalesceLoop_offset_le _ _ _ e he)
          have h2 := ih (offset + t.length) [] (by simp)
          simp only [oldSide, newSide, List.nil_append] at hsh h2 ⊢
          rw [hsh, h2]
        · rw [if_neg hb]
          by_cases hle : hasLineEnding t = true
          · rw [if_pos hle]
            have hfl := applyEdits_flush offset batch (t ++ oldSide (r2 :: rs))
              (coalesceLoop (r2 :: rs) (offset + (oldSide batch).length + t.length) [])
            have hsh := applyEdits_shift t (oldSide (r2 :: rs))
              (offset + (oldSide batch).length)
              (coalesceLoop (r2 :: rs) (offset + (oldSide batch).length + t.length) [])
              (fun e he => coalesceLoop_offset_le _ _ _ e he)
            have h2 := ih (offset + (oldSide batch).length + t.length) [] (by simp)
            simp only [oldSide, newSide, List.nil_append] at hfl hsh h2 ⊢
            rw [hfl, hsh, h2]
          · rw [if_neg hle]
            have h2 := ih offset (batch ++ [.equal t]) (by simp)
            simp only [oldSide_append, newSide_append, oldSide, newSide,
              List.append_nil, List.append_assoc] at h2 ⊢
            exact h2

/-
Helper lemmas about object field lists and the merge loop.
-/

/-- Induction principle for field lists alone, with field values opaque. The
mutual recursor of the configuration types has several motives, so the plain
induction tactic needs this derived one-motive principle. -/
theorem fieldsInduction (motive : Fields → Prop) (fnil : motive .fnil)
    (fcons : ∀ k v rest, motive rest → motive (.fcons k v rest)) :
    ∀ fs, motive fs
  | .fnil => fnil
  | .fcons k v rest => fcons k v rest (fieldsInduction motive fnil fcons rest)

theorem getField_setField_same (fs : Fields) (k : String) (v : ConfigValue) :
    getField (setField fs k v) k = some v := by
  induction fs using fieldsInduction with
  | fnil => simp [setField, getField]
  | fcons k2 v2 rest ih =>
    simp only [setField]
    by_cases h : k2 = k
    · rw [if_pos h]
      simp [getField, h]
    · rw [if_neg h]
      simp [getField, h, ih]

theorem getField_setField_other (fs : Fields) (k k2 : String) (v : ConfigValue)
    (h : k ≠ k2) : getField (setField fs k v) k2 = getField fs k2 := by
  induction fs using fieldsInduction with
  | fnil => simp [setField, getField, h]
  | fcons k3 v3 rest ih =>
    simp only [setField]
    by_cases h3 : k3 = k
    · rw [if_pos h3]
      subst h3
      simp [getField, h]
    · rw [if_neg h3]
      simp [getField, ih]

theorem setField_eq_self (fs : Fields) (k : String) (v : ConfigValue)
    (h : getField fs k = some v) : setField fs k v = fs := by
  induction fs using fieldsInduction with
  | fnil => simp [getField] at h
  | fcons k2 v2 rest ih =>
    simp only [getField] at h
    simp only [setField]
    by_cases h2 : k2 = k
    · rw [if_pos h2] at h ⊢
      rw [Option.some.injEq] at h
      rw [h]
    · rw [if_neg h2] at h ⊢
      rw [ih h]

theorem fappend_fnil (fs : Fields) : fappend fs .fnil = fs := by
  induction fs using fieldsInduction with
  | fnil => rfl
  | fcons k v rest ih => simp [fappend, ih]

theorem fappend_assoc (a b c : Fields) :
    fappend (fappend a b) c = fappend a (fappend b c) := by
  induction a using fieldsInduction with
  | fnil => rfl
  | fcons k v rest ih => simp [fappend, ih]

theorem setField_append_new (fs : Fields) (k : String) (v : ConfigValue)
    (h : getField fs k = none) :
    setField fs k v = fappend fs (.fcons k v .fnil) := by
  induction fs using fieldsInduction with
  | fnil => simp [setField, fappend]
  | fcons k2 v2 rest ih =>
    simp only [getField] at h
    by_cases h2 : k2 = k
    · rw [if_pos h2] at h
      exact absurd h (by simp)
    · rw [if_neg h2] at h
      simp only [setField, fappend]
      rw [if_neg h2, ih h]

theorem getField_none_of_keyNotIn {fs : Fields} {k : String}
    (h : keyNotIn k fs = true) : getField fs k = none := by
  induction fs using fieldsInduction with
  | fnil => rfl
  | fcons k2 v rest ih =>
    simp only [keyNotIn] at h
    by_cases h2 : k2 = k
    · rw [if_pos h2] at h
      simp at h
    · rw [if_neg h2] at h
      simp [getField, h2, ih h]

theorem getField_fappend (a b : Fields) (k : String) :
    getField (fappend a b) k =
      match getField a k with
      | some v => some v
      | none => getField b k := by
  induction a using fieldsInduction with
  | fnil => simp [fappend, getField]
  | fcons k2 v rest ih =>
    simp only [fappend, getField]
    by_cases h2 : k2 = k
    · rw [if_pos h2, if_pos h2]
    · rw [if_neg h2, if_neg h2, ih]

/-- Merging leaves keys outside the override untouched. -/
theorem getField_mergeFields_notIn :
    ∀ (ov bf : Fields) (k : String), keyNotIn k ov = true →
      getField (mergeFields bf ov) k = getField bf k := by
  intro ov
  induction ov using fieldsInduction with
  | fnil => intro bf k _; rfl
  | fcons k1 v1 rest ih =>
    intro bf k h
    simp only [keyNotIn] at h
    by_cases h1 : k1 = k
    · rw [if_pos h1] at h
      simp at h
    · rw [if_neg h1] at h
      simp only [mergeFields]
      rw [ih _ _ h, getField_setField_other _ _ _ _ h1]

/-- Lookup in a merged object: a key absent from the override keeps its base
value, a key present in the override gets the merged value of its base
binding (if any) and its override binding. -/
theorem getField_mergeFields :
    ∀ (ov bf : Fields) (k : String), keysNodup ov = true →
      getField (mergeFields bf ov) k =
        match getField ov k with
        | none => getField bf k
        | some vb => some (mergeValueAt (getField bf k) vb) := by
  intro ov
  induction ov using fieldsInduction with
  | fnil => intro bf k _; simp [mergeFields, getField]
  | fcons k1 v1 rest ih =>
    intro bf k h
    simp only [keysNodup, Bool.and_eq_true] at h
    simp only [mergeFields]
    by_cases h1 : k1 = k
    · subst h1
      rw [getField_mergeFields_notIn rest _ k1 h.1, getField_setField_same]
      simp [getField]
    · rw [ih _ _ h.2, getField_setField_other _ _ _ _ h1]
      simp [getField, h1]

theorem ne_of_getField_keyNotIn {fs : Fields} {k1 k : String} {v : ConfigValue}
    (hget : getField fs k = some v) (hno : keyNotIn k1 fs = true) : k1 ≠ k := by
  intro he
  subst he
  rw [getField_none_of_keyNotIn hno] at hget
  exact Option.noConfusion hget

/-- Merging disjoint field lists concatenates them: every override key is
fresh, so the loop appends its fields in order. -/
theorem mergeFields_disjoint_append :
    ∀ (ov pre : Fields), keysNodup ov = true →
      (∀ k v, getField ov k = some v → getField pre k = none) →
      mergeFields pre ov = fappend pre ov := by
  intro ov
  induction ov using fieldsInduction with
  | fnil =>
    intro pre _ _
    simp [mergeFields, fappend_fnil]
  | fcons k1 v1 rest ih =>
    intro pre hnd hdis
    simp only [keysNodup, Bool.and_eq_true] at hnd
    have hpre : getField pre k1 = none := by
      refine hdis k1 v1 ?_
      simp [getField]
    have hnv : mergeValueAt (getField pre k1) v1 = v1 := by
      rw [hpre]
      cases v1 <;> rfl
    simp only [mergeFields]
    rw [hnv, setField_append_new pre k1 v1 hpre]
    rw [ih (fappend pre (.fcons k1 v1 .fnil)) hnd.2 ?_]
    · rw [fappend_assoc]
      rfl
    · intro k v hv
      have hne : k1 ≠ k := ne_of_getField_keyNotIn hv hnd.1
      rw [getField_fappend]
      have hpk : getField pre k = none := by
        refine hdis k v ?_
        simp [getField, hne, hv]
      rw [hpk]
      simp [getField, hne]

mutual

/-- Merging a well-formed value onto itself through the per-key rule changes
nothing. -/
theorem mergeValueAt_self (v : ConfigValue) (h : wellFormed v = true) :
    mergeValueAt (some v) v = v := by
  cases v with
  | null => rfl
  | bool b => rfl
  | num n => rfl
  | str s => rfl
  | arr l => rfl
  | obj fs =>
    simp only [mergeValueAt]
    rw [mergeFields_self fs (by simpa [wellFormed] using h) fs (fun k v hv => hv)]

/-- Running the merge loop over a well-formed field list whose every binding
is already present unchanged in the result leaves the result unchanged. -/
theorem mergeFields_self (rest : Fields) (h : wellFormedFields rest = true) :
    ∀ res : Fields, (∀ k v, getField rest k = some v → getField res k = some v) →
      mergeFields res rest = res := by
  cases rest with
  | fnil =>
    intro res _
    rfl
  | fcons k1 v1 rest2 =>
    intro res hsub
    have h3 : keyNotIn k1 rest2 = true ∧ wellFormed v1 = true ∧
        wellFormedFields rest2 = true := by
      simpa [wellFormedFields, Bool.and_eq_true, and_assoc] using h
    have hres : getField res k1 = some v1 := by
      refine hsub k1 v1 ?_
      simp [getField]
    simp only [mergeFields]
    rw [hres, mergeValueAt_self v1 h3.2.1, setField_eq_self res k1 v1 hres]
    refine mergeFields_self rest2 h3.2.2 res ?_
    intro k v hv
    have hne : k1 ≠ k := ne_of_getField_keyNotIn hv h3.1
    refine hsub k v ?_
    simp [getField, hne, hv]

end

/-
Agreement of the numeric loop with the well-formed-script loop.
-/

theorem rawDeleteText_encode : ∀ batch : List RawOp,
    rawDeleteText (batch.map encodeRawOp) = oldSide batch := by
  intro batch
  induction batch with
  | nil => rfl
  | cons r rest ih => cases r <;> simp [rawDeleteText, encodeRawOp, oldSide, ih]

theorem rawInsertText_encode : ∀ batch : List RawOp,
    rawInsertText (batch.map encodeRawOp) = newSide batch := by
  intro batch
  induction batch with
  | nil => rfl
  | cons r rest ih => cases r <;> simp [rawInsertText, encodeRawOp, newSide, ih]

theorem rawFlush_encode (offset : Nat) (batch : List RawOp) :
    rawFlush offset (batch.map encodeRawOp) = flush offset batch := by
  simp only [rawFlush, flush, rawDeleteText_encode, rawInsertText_encode]

/-- On a script of the three defined kinds the numeric loop never fails and
computes exactly what the well-formed loop computes. -/
theorem rawCoalesceLoop_encode :
    ∀ (results : List RawOp) (offset : Nat) (batch : List RawOp),
      rawCoalesceLoop (results.map encodeRawOp) offset (batch.map encodeRawOp) =
        .ok (coalesceLoop results offset batch) := by
  intro results
  induction results with
  | nil => intro offset batch; rfl
  | cons r rest ih =>
    intro offset batch
    cases rest with
    | nil =>
      cases r with
      | insert t =>
        simp only [List.map_cons, List.map_nil, encodeRawOp, rawCoalesceLoop, coalesceLoop]
        simp only [true_or, if_true]
        rw [show List.map encodeRawOp batch ++ [((1 : Int), t)] =
          List.map encodeRawOp (batch ++ [RawOp.insert t]) by simp [encodeRawOp]]
        rw [rawFlush_encode]
      | delete t =>
        simp only [List.map_cons, List.map_nil, encodeRawOp, rawCoalesceLoop, coalesceLoop]
        simp only [or_true, if_true]
        rw [show List.map encodeRawOp batch ++ [((-1 : Int), t)] =
          List.map encodeRawOp (batch ++ [RawOp.delete t]) by simp [encodeRawOp]]
        rw [rawFlush_encode]
      | equal t =>
        simp only [List.map_cons, List.map_nil, encodeRawOp, rawCoalesceLoop, coalesceLoop]
        rw [if_neg (by decide : ¬((0 : Int) = 1 ∨ (0 : Int) = -1))]
        simp only [if_true]
        rw [rawFlush_encode]
    | cons r2 rs =>
      cases r with
      | insert t =>
        simp only [List.map_cons,
          show encodeRawOp (RawOp.insert t) = ((1 : Int), t) from rfl,
          rawCoalesceLoop, coalesceLoop, true_or, if_true]
        rw [show List.map encodeRawOp batch ++ [((1 : Int), t)] =
          List.map encodeRawOp (batch ++ [RawOp.insert t]) by simp [encodeRawOp]]
        exact ih offset (batch ++ [.insert t])
      | delete t =>
        simp only [List.map_cons,
          show encodeRawOp (RawOp.delete t) = ((-1 : Int), t) from rfl,
          rawCoalesceLoop, coalesceLoop, or_true, if_true]
        rw [show List.map encodeRawOp batch ++ [((-1 : Int), t)] =
          List.map encodeRawOp (batch ++ [RawOp.delete t]) by simp [encodeRawOp]]
        exact ih offset (batch ++ [.delete t])
      | equal t =>
        simp only [List.map_cons,
          show encodeRawOp (RawOp.equal t) = ((0 : Int), t) from rfl,
          rawCoalesceLoop, coalesceLoop]
        rw [if_neg (by decide : ¬((0 : Int) = 1 ∨ (0 : Int) = -1))]
        simp only [if_true]
        by_cases hb : batch = []
        · subst hb
          simp only [List.map_nil, if_true]
          have h2 := ih (offset + t.length) []
          simpa using h2
        · have hmap : ¬(List.map encodeRawOp batch = []) := fun hemp =>
            hb (List.map_eq_nil_iff.mp hemp)
          rw [if_neg hmap, if_neg hb]
          by_cases hle : hasLineEnding t = true
          · rw [if_pos hle, if_pos hle]
            rw [rawDeleteText_encode]
            have h2 := ih (offset + (oldSide batch).length + t.length) []
            simp only [List.map_nil, List.map_cons] at h2
            rw [h2, rawFlush_encode]
          · rw [if_neg hle, if_neg hle]
            rw [show List.map encodeRawOp batch ++ [((0 : Int), t)] =
              List.map encodeRawOp (batch ++ [RawOp.equal t]) by simp [encodeRawOp]]
            exact ih offset (batch ++ [.equal t])

theorem getField_mergeFields_some (ov bf : Fields) (k : String) (vb : ConfigValue)
    (hnd : keysNodup ov = true) (h : getField ov k = some vb) :
    getField (mergeFields bf ov) k = some (mergeValueAt (getField bf k) vb) := by
  rw [getField_mergeFields ov bf k hnd, h]

theorem getField_mergeFields_none (ov bf : Fields) (k : String)
    (hnd : keysNodup ov = true) (h : getField ov k = none) :
    getField (mergeFields bf ov) k = getField bf k := by
  rw [getField_mergeFields ov bf k hnd, h]

/-
Claim theorems.
-/

/-- C1: Round trip. For every raw edit script whose old-side projection
(concatenation of Equal and Delete texts) is source and whose new-side
projection (concatenation of Equal and Insert texts) is target, applying the
edits produced by the coalescing loop of generateDifferences to source, each
at its stated offset into the original source, in order, replacing deleteText
with insertText, yields exactly target. -/
theorem generateDifferences_round_trip (script : List RawOp)
    (source target : List Char)
    (hOld : oldSide script = source) (hNew : newSide script = target) :
    applyEdits source 0 (coalesce script) = target := by
  subst hOld
  subst hNew
  have h := coalesceLoop_round_trip script 0 [] (fun _ => rfl)
  simpa [coalesce, oldSide, newSide] using h

/-- Witness for C1 at the diff of "hello world" against "hello universe". -/
theorem generateDifferences_round_trip_witness :
    applyEdits ("hello world".toList) 0
        (coalesce [.equal "hello ".toList, .delete "world".toList,
          .insert "universe".toList]) =
      "hello universe".toList :=
  generateDifferences_round_trip _ _ _ (by decide) (by decide)

/-- C2 counterexample: in the script Delete "a", Equal "b" the final op is an
Equal whose text has no line ending and the batch is non-empty when it is
processed, yet its text is not appended to the batch: the emitted edit is the
plain delete of "a", not the flush of the batch with the Equal entry appended,
which would be the replace of "ab" by "b". -/
theorem equal_final_op_counterexample :
    hasLineEnding ['b'] = false ∧
    coalesce [.delete ['a'], .equal ['b']] = [.del 0 ['a']] ∧
    flush 0 [.delete ['a'], .equal ['b']] = [.repl 0 ['a', 'b'] ['b']] ∧
    coalesce [.delete ['a'], .equal ['b']] ≠ flush 0 [.delete ['a'], .equal ['b']] := by
  decide

/-- C2 (amended): whenever an Equal op with text t is processed while the
batch is non-empty, t contains no line ending and at least one further op
remains, t is appended to the batch as an Equal entry and contributes to both
the delete side and the insert side of the eventual flush of that batch; at
end of input a non-empty batch is flushed unconditionally, but a final Equal
op is skipped, the batch being flushed without it. -/
theorem equal_batching_appends (t : List Char) (offset : Nat)
    (batch : List RawOp) (op2 : RawOp) (rest : List RawOp)
    (hb : batch ≠ []) (ht : hasLineEnding t = false) :
    coalesceLoop (.equal t :: op2 :: rest) offset batch =
      coalesceLoop (op2 :: rest) offset (batch ++ [.equal t]) ∧
    oldSide (batch ++ [.equal t]) = oldSide batch ++ t ∧
    newSide (batch ++ [.equal t]) = newSide batch ++ t ∧
    coalesceLoop [.equal t] offset batch = flush offset batch := by
  refine ⟨?_, ?_, ?_, rfl⟩
  · simp only [coalesceLoop]
    rw [if_neg hb, if_neg (by simp [ht])]
  · simp [oldSide_append, oldSide]
  · simp [newSide_append, newSide]

/-- Witness for the amended C2 with batch Delete "a", Equal text "b" and a
further Insert op remaining. -/
theorem equal_batching_appends_witness :
    coalesceLoop [.equal ['b'], .insert ['c']] 0 [.delete ['a']] =
      coalesceLoop [.insert ['c']] 0 ([.delete ['a']] ++ [.equal ['b']]) ∧
    oldSide ([.delete ['a']] ++ [.equal ['b']]) = oldSide [.delete ['a']] ++ ['b'] ∧
    newSide ([.delete ['a']] ++ [.equal ['b']]) = newSide [.delete ['a']] ++ ['b'] ∧
    coalesceLoop [.equal ['b']] 0 [.delete ['a']] = flush 0 [.delete ['a']] :=
  equal_batching_appends ['b'] 0 [.delete ['a']] (.insert ['c']) []
    (by decide) (by decide)

/-- C5 counterexample: the script Insert "a", Delete "a" satisfies the
reconstruction invariant for source = target = "a", yet its coalesced edit
sequence is the non-empty replace of "a" by "a", so emptiness of the output
is not equivalent to source equalling target. -/
theorem coalesce_empty_iff_counterexample :
    oldSide [.insert ['a'], .delete ['a']] = newSide [.insert ['a'], .delete ['a']] ∧
    coalesce [.insert ['a'], .delete ['a']] = [.repl 0 ['a'] ['a']] ∧
    coalesce [.insert ['a'], .delete ['a']] ≠ [] := by
  decide

/-- C5 (amended): an empty coalesced edit sequence forces the old and new
projections of the script, hence source and target, to be equal; and the raw
diff of a string against itself, which is a single Equal op for a non-empty
string and the empty script for the empty string, coalesces to the empty
sequence. -/
theorem coalesce_empty_implies_identical (script : List RawOp) :
    (coalesce script = [] → oldSide script = newSide script) ∧
    coalesce [] = [] ∧
    (∀ s : List Char, coalesce [.equal s] = []) := by
  refine ⟨?_, rfl, fun s => rfl⟩
  intro h
  have h2 := coalesceLoop_eq_nil script 0 [] (fun _ => rfl) h
  simpa using h2

/-- Witness for the amended C5 at the one-op script Equal "x". -/
theorem coalesce_empty_implies_identical_witness :
    oldSide [RawOp.equal ['x']] = newSide [RawOp.equal ['x']] :=
  (coalesce_empty_implies_identical [RawOp.equal ['x']]).1 (by decide)

/-- C6: Output ordering invariant. The edits emitted by generateDifferences
come in strictly ascending, non-overlapping offset order: for every pair of
consecutive emitted edits, the offset of the earlier edit plus the length of
its deleteText (zero for a missing deleteText) is strictly below the offset
of the later edit. -/
theorem coalesce_output_ordering (script : List RawOp) :
    List.Chain' (fun e1 e2 => e1.offset + e1.deleteText.length < e2.offset)
      (coalesce script) :=
  coalesceLoop_chain script 0 []

/-- C8: Unrecognized-op error. A raw script containing a tuple whose tag is
none of 1 (insert), -1 (delete) and 0 (equal) makes the coalescing loop
surface an error when it reaches that tuple instead of skipping it silently,
while a script carrying only the three defined tags never produces an
error. -/
theorem rawCoalesceLoop_unrecognized_op :
    (∀ (results : List RawResult) (offset : Nat) (batch : List RawResult),
      (∃ r ∈ results, r.1 ≠ 1 ∧ r.1 ≠ -1 ∧ r.1 ≠ 0) →
      ∃ msg, rawCoalesceLoop results offset batch = .error msg) ∧
    (∀ (results : List RawResult) (offset : Nat) (batch : List RawResult),
      (∀ r ∈ results, r.1 = 1 ∨ r.1 = -1 ∨ r.1 = 0) →
      ∃ ds, rawCoalesceLoop results offset batch = .ok ds) :=
  ⟨rawCoalesceLoop_error, rawCoalesceLoop_ok⟩

/-- Witness for C8: tag 5 aborts with an error, a well-formed script runs to
a result. -/
theorem rawCoalesceLoop_unrecognized_op_witness :
    (∃ msg, rawCoalesceLoop [(5, ['a'])] 0 [] = .error msg) ∧
    (∃ ds, rawCoalesceLoop [(1, ['a']), (0, ['b'])] 0 [] = .ok ds) :=
  ⟨rawCoalesceLoop_unrecognized_op.1 [(5, ['a'])] 0 []
      ⟨(5, ['a']), by decide, by decide⟩,
    rawCoalesceLoop_unrecognized_op.2 [(1, ['a']), (0, ['b'])] 0 [] (by decide)⟩

/-- C9: VisibleGlyph substitution. showInvisibles is total, equal to the
character-by-character map replacing space by the middle dot, newline by the
return symbol, tab by the tab symbol and carriage return by the CR symbol,
it leaves every other character unchanged, and it emits exactly one character
per input character. -/
theorem showInvisibles_glyph_map (s : List Char) :
    showInvisibles s = s.map glyphMap ∧
    (showInvisibles s).length = s.length ∧
    glyphMap ' ' = '·' ∧ glyphMap '\n' = '⏎' ∧ glyphMap '\t' = '↹' ∧
    glyphMap '\r' = '␍' ∧
    (∀ c : Char, c ≠ ' ' → c ≠ '\n' → c ≠ '\t' → c ≠ '\r' → glyphMap c = c) := by
  refine ⟨showInvisibles_eq_map s, ?_, rfl, rfl, rfl, rfl, ?_⟩
  · rw [showInvisibles_eq_map s, List.length_map]
  · intro c h1 h2 h3 h4
    simp [glyphMap, h1, h2, h3, h4]

/-- Witness for C9 on a three-character input with an untouched letter. -/
theorem showInvisibles_glyph_map_witness :
    showInvisibles [' ', 'x', '\n'] = List.map glyphMap [' ', 'x', '\n'] ∧
    glyphMap 'x' = 'x' :=
  ⟨(showInvisibles_glyph_map [' ', 'x', '\n']).1,
    (showInvisibles_glyph_map [' ', 'x', '\n']).2.2.2.2.2.2 'x' (by decide)
      (by decide) (by decide) (by decide)⟩

/-- C3: Merge override precedence. For configuration objects a and b and a
key present in both whose two values are not both non-array objects (one side
a scalar, an array or null), the merged object binds that key to exactly the
override value; in particular an array-valued key on both sides is replaced
wholesale by the override array, never concatenated. -/
theorem mergeConfigs_override_precedence (af bf : Fields) (k : String)
    (va vb : ConfigValue) (hnd : keysNodup bf = true)
    (ha : getField af k = some va) (hb : getField bf k = some vb)
    (hno : ¬(va.isObj = true ∧ vb.isObj = true)) :
    getKey (mergeConfigs (.obj af) (.obj bf)) k = some vb := by
  show getField (mergeFields af bf) k = some vb
  rw [getField_mergeFields_some bf af k vb hnd hb, ha]
  cases va with
  | obj fa =>
    cases vb with
    | obj fb => exact absurd ⟨rfl, rfl⟩ hno
    | null => rfl
    | bool b => rfl
    | num n => rfl
    | str s2 => rfl
    | arr l => rfl
  | null => cases vb <;> rfl
  | bool b => cases vb <;> rfl
  | num n => cases vb <;> rfl
  | str s2 => cases vb <;> rfl
  | arr l => cases vb <;> rfl

/-- Witness for C3 at the plugins example: the override array replaces the
base array wholesale. -/
theorem mergeConfigs_override_precedence_witness :
    getKey (mergeConfigs
        (.obj (.fcons "plugins" (.arr (.cons (.str "p1") (.cons (.str "p2") .nil))) .fnil))
        (.obj (.fcons "plugins" (.arr (.cons (.str "p3") .nil)) .fnil))) "plugins" =
      some (.arr (.cons (.str "p3") .nil)) :=
  mergeConfigs_override_precedence _ _ "plugins" _ _ (by decide) rfl rfl (by decide)

/-- C4: Merge recursion. The merged object is defined key-by-key over the
union of the keys of both objects: a key present only in the base keeps its
base value, a key present only in the override gets the override value, and
a key bound to non-array objects on both sides is bound to the recursive
merge of the two, so the same rules apply again at every nesting depth. -/
theorem mergeConfigs_recursion (af bf : Fields) (hnd : keysNodup bf = true) :
    (∀ k v, getField bf k = none → getField af k = some v →
      getKey (mergeConfigs (.obj af) (.obj bf)) k = some v) ∧
    (∀ k v, getField af k = none → getField bf k = some v →
      getKey (mergeConfigs (.obj af) (.obj bf)) k = some v) ∧
    (∀ k na nb, getField af k = some (.obj na) → getField bf k = some (.obj nb) →
      getKey (mergeConfigs (.obj af) (.obj bf)) k =
        some (mergeConfigs (.obj na) (.obj nb))) := by
  refine ⟨?_, ?_, ?_⟩
  · intro k v hbf haf
    show getField (mergeFields af bf) k = some v
    rw [getField_mergeFields_none bf af k hnd hbf, haf]
  · intro k v haf hbf
    show getField (mergeFields af bf) k = some v
    rw [getField_mergeFields_some bf af k v hnd hbf, haf]
    cases v <;> rfl
  · intro k na nb haf hbf
    show getField (mergeFields af bf) k = some (mergeConfigs (.obj na) (.obj nb))
    rw [getField_mergeFields_some bf af k _ hnd hbf, haf]
    rfl

/-- Witness for C4 at the rules example of the specification: the nested
rules objects merge field-by-field into a:"error", b:"off", c:"error". -/
theorem mergeConfigs_recursion_witness :
    getKey (mergeConfigs
        (.obj (.fcons "rules"
          (.obj (.fcons "a" (.str "error") (.fcons "b" (.str "warn") .fnil))) .fnil))
        (.obj (.fcons "rules"
          (.obj (.fcons "b" (.str "off") (.fcons "c" (.str "error") .fnil))) .fnil)))
        "rules" =
      some (mergeConfigs
        (.obj (.fcons "a" (.str "error") (.fcons "b" (.str "warn") .fnil)))
        (.obj (.fcons "b" (.str "off") (.fcons "c" (.str "error") .fnil)))) ∧
    mergeConfigs
        (.obj (.fcons "a" (.str "error") (.fcons "b" (.str "warn") .fnil)))
        (.obj (.fcons "b" (.str "off") (.fcons "c" (.str "error") .fnil))) =
      .obj (.fcons "a" (.str "error")
        (.fcons "b" (.str "off") (.fcons "c" (.str "error") .fnil))) :=
  ⟨(mergeConfigs_recursion
      (.fcons "rules"
        (.obj (.fcons "a" (.str "error") (.fcons "b" (.str "warn") .fnil))) .fnil)
      (.fcons "rules"
        (.obj (.fcons "b" (.str "off") (.fcons "c" (.str "error") .fnil))) .fnil)
      (by decide)).2.2 "rules" _ _ rfl rfl,
    rfl⟩

/-- C7: Merge identity. Merging a configuration object with the empty object
on either side yields the object itself, structurally unchanged. -/
theorem mergeConfigs_identity (af bf : Fields) (hnd : keysNodup bf = true) :
    mergeConfigs (.obj af) (.obj .fnil) = .obj af ∧
    mergeConfigs (.obj .fnil) (.obj bf) = .obj bf := by
  constructor
  · rfl
  · show ConfigValue.obj (mergeFields .fnil bf) = .obj bf
    rw [mergeFields_disjoint_append bf .fnil hnd (fun k v _ => rfl)]
    rfl

/-- Witness for C7 on small one-field objects. -/
theorem mergeConfigs_identity_witness :
    mergeConfigs (.obj (.fcons "a" (.str "error") .fnil)) (.obj .fnil) =
      .obj (.fcons "a" (.str "error") .fnil) ∧
    mergeConfigs (.obj .fnil) (.obj (.fcons "b" (.num 1) .fnil)) =
      .obj (.fcons "b" (.num 1) .fnil) :=
  mergeConfigs_identity (.fcons "a" (.str "error") .fnil)
    (.fcons "b" (.num 1) .fnil) (by decide)

/-- C10: Merge idempotence. Merging a well-formed configuration tree with
itself yields the tree unchanged, at every nesting depth. -/
theorem mergeConfigs_idempotent (fs : Fields) (h : wellFormedFields fs = true) :
    mergeConfigs (.obj fs) (.obj fs) = .obj fs := by
  show ConfigValue.obj (mergeFields fs fs) = .obj fs
  rw [mergeFields_self fs h fs (fun k v hv => hv)]

/-- Witness for C10 on a nested two-level tree. -/
theorem mergeConfigs_idempotent_witness :
    mergeConfigs
        (.obj (.fcons "rules" (.obj (.fcons "a" (.str "error") .fnil)) .fnil))
        (.obj (.fcons "rules" (.obj (.fcons "a" (.str "error") .fnil)) .fnil)) =
      .obj (.fcons "rules" (.obj (.fcons "a" (.str "error") .fnil)) .fnil) :=
  mergeConfigs_idempotent
    (.fcons "rules" (.obj (.fcons "a" (.str "error") .fnil)) .fnil) (by decide)
